import Mathlib

/-! Verification of the DOQPSK demodulator stage of glrpt
(`src/demodulator/doqpsk.c`): sync-word location, stream
resynchronization, convolutional de-interleaving, the integer
square-root table and the differential decoder.

Buffers of `uint8_t` soft symbols are modelled as `List Nat` and signed
(`int8_t`) soft symbols as `List Int`; machine-integer narrowing is made
explicit where the C code performs it.  The two loops of `Resync_Stream`
are modelled with explicit fuel; the `trackLoop_stable` and
`resyncLoop_stable` lemmas below prove the chosen fuel is never
exhausted, so the definitions compute the same values as the C loops on
every input.
-/

set_option maxRecDepth 100000

namespace Doqpsk

/-- `Byte_at_Offset` (doqpsk.c 64-81): hard-decision thresholding of the 8
consecutive soft symbols starting at `off`, one bit per symbol (`1` when the
symbol value is `< 128`), packed least-significant-bit first. -/
def Byte_at_Offset (data : List Nat) (off : Nat) : Nat :=
  (List.range 8).foldl
    (fun result i =>
      result ||| ((if data.getD (off + i) 0 < 128 then 1 else 0) <<< i)) 0

/-- The indices of the buffer read by `Byte_at_Offset data off`: the C routine
dereferences `data[0] .. data[7]` relative to `off`. -/
def byteWindow (off : Nat) : List Nat :=
  (List.range 8).map (fun i => off + i)

/-- The depth-confirmation loop of `Find_Sync` (doqpsk.c 116-123): the byte
candidates at `pos + j * step` for `j = 1 .. depth` must all equal `sync`.
The C loop breaks at the first mismatch; `List.all` computes the same value. -/
def syncCheck (data : List Nat) (pos step depth sync : Nat) : Bool :=
  (List.range depth).all
    (fun j => Byte_at_Offset data (pos + (j + 1) * step) == sync)

/-- The candidate-offset loop of `Find_Sync` (doqpsk.c 107-132): `i` is the
current candidate offset relative to `base`, `n` the number of iterations
remaining (`limit - i`). -/
def findSyncLoop (data : List Nat) (base step depth : Nat) :
    Nat → Nat → Option (Nat × Nat)
  | 0, _ => none
  | n + 1, i =>
      if syncCheck data (base + i) step depth (Byte_at_Offset data (base + i))
      then some (i, Byte_at_Offset data (base + i))
      else findSyncLoop data base step depth n (i + 1)

/-- `Find_Sync` (doqpsk.c 89-135), searching the block of `block_siz` symbols
starting at `data + base`: returns `some (offset, sync)` on success and `none`
on failure.  The loop bound is `limit = block_siz - step * depth`; the C `int`
limit is non-positive exactly when the truncated `Nat` subtraction is `0`, and
in both cases the loop body never runs. -/
def Find_Sync (data : List Nat) (base block_siz step depth : Nat) :
    Option (Nat × Nat) :=
  findSyncLoop data base step depth (block_siz - step * depth) 0

/-- The look-ahead scan of the tracking loop of `Resync_Stream`
(doqpsk.c 174-187): probe `i = 0 .. 127`; a probe at `tmp = posn + i * 80`
counts only when `tmp < limit2`, and succeeds when the hard-decision byte
there equals `sync`.  The C loop breaks at the first success; `List.any`
computes the same value. -/
def lookAhead (src : List Nat) (limit2 : Int) (posn sync : Nat) : Bool :=
  (List.range 128).any
    (fun i =>
      decide (((posn + i * 80 : Nat) : Int) < limit2) &&
        (Byte_at_Offset src (posn + i * 80) == sync))

/-- The 72 data symbols following the 8-symbol sync header at `posn`: the
source bytes of the `memcpy` at doqpsk.c 194. -/
def chunkAt (src : List Nat) (posn : Nat) : List Nat :=
  (src.drop (posn + 8)).take 72

/-- The tracking loop of `Resync_Stream` (doqpsk.c 172-199): while
`posn < limit2`, either the look-ahead confirms the sync train and the 72
data symbols at `posn + 8` are appended to the output with `posn` advancing
by one 80-symbol frame period, or the loop exits.  `fuel` bounds the number
of iterations; `trackLoop_stable` shows `src.length` fuel is never
exhausted. -/
def trackLoop (src : List Nat) (limit2 : Int) (sync : Nat) :
    Nat → Nat → List Nat → Nat × List Nat
  | 0, posn, out => (posn, out)
  | fuel + 1, posn, out =>
      if (posn : Int) < limit2 then
        if lookAhead src limit2 posn sync then
          trackLoop src limit2 sync fuel (posn + 80) (out ++ chunkAt src posn)
        else (posn, out)
      else (posn, out)

/-- The coarse-acquisition loop of `Resync_Stream` (doqpsk.c 160-200): while
`posn < limit1`, call `Find_Sync` over a 400-symbol block with stride 80 and
depth 4; on failure advance by 240, on success advance to the found offset
and run the tracking loop.  `fuel` bounds the number of iterations;
`resyncLoop_stable` shows `src.length` fuel is never exhausted. -/
def resyncLoop (src : List Nat) (limit1 limit2 : Int) :
    Nat → Nat → List Nat → List Nat
  | 0, _, out => out
  | fuel + 1, posn, out =>
      if (posn : Int) < limit1 then
        match Find_Sync src posn 400 80 4 with
        | none => resyncLoop src limit1 limit2 fuel (posn + 240) out
        | some (offset, sync) =>
            resyncLoop src limit1 limit2 fuel
              (trackLoop src limit2 sync src.length (posn + offset) out).1
              (trackLoop src limit2 sync src.length (posn + offset) out).2
      else out

/-- `Resync_Stream` (doqpsk.c 141-203): operate on a private copy `src` of the
raw buffer (reads never see the compacted output), with
`limit1 = raw_siz - SYNCD_BUF_MARGIN = raw_siz - 320` and
`limit2 = raw_siz - INTLV_SYNCDATA = raw_siz - 80`.  The returned list is the
compacted output written back into the prefix of the caller's buffer;
`*resync_siz` is its length. -/
def Resync_Stream (raw : List Nat) : List Nat :=
  resyncLoop raw ((raw.length : Int) - 320) ((raw.length : Int) - 80)
    raw.length 0 []

/-- Modelled from the spec: the de-interleaved output buffer comes from
`mem_alloc` (defined in `src/glrpt/utils.c`, which is not part of the sources
provided), and destination cells whose source index is out of bounds are never
written by the loop.  The spec says such cells are left "unfilled
(zero/default)", so the allocator's cell default is modelled as `0`. -/
def allocDefault : Nat := 0

/-- The de-interleaving loop of `De_Interleave` (doqpsk.c 228-236): output
cell `i` (for `0 ≤ i < resync_siz`) takes the symbol at source index
`i + (i % INTLV_BRANCHES) * INTLV_BASE_LEN = i + (i % 36) * 73728` whenever
that index is `< resync_siz`; otherwise the cell is never written.  The
source reads hit the prefix of the caller's buffer, which `Resync_Stream`
has just overwritten with its compacted output. -/
def De_Interleave (raw : List Nat) : List Nat :=
  (List.range (Resync_Stream raw).length).map
    (fun i =>
      if i + (i % 36) * 73728 < (Resync_Stream raw).length then
        (Resync_Stream raw).getD (i + (i % 36) * 73728) 0
      else allocDefault)

/-- The allocation guard of `De_Interleave` (doqpsk.c 221):
`if( *resync_siz && (*resync_siz < raw_siz) )`.  When this is `false` the
code takes the `else` branch and signals `"Resync_Stream() failed"`. -/
def resyncOk (raw : List Nat) : Bool :=
  (!((Resync_Stream raw).length == 0)) &&
    decide ((Resync_Stream raw).length < raw.length)

/-- Helper computing the floor square root of `idx` by scanning down from
`r`: the largest `s ≤ r` with `s * s ≤ idx`.  `sqrtLoop_eq_sqrt` below shows
it agrees with `Nat.sqrt` whenever `Nat.sqrt idx ≤ r`. -/
def sqrtLoop : Nat → Nat → Nat
  | 0, _ => 0
  | r + 1, idx => if (r + 1) * (r + 1) ≤ idx then r + 1 else sqrtLoop r idx

/-- The table built by `Make_Isqrt_Table` (doqpsk.c 245-251):
`isqrt_table[idx] = (uint8_t)( sqrt( (double)idx ) )` for `idx ≤ 16384`.  For
such `idx` the true square root is at most `128`; IEEE-754 double `sqrt` is
correctly rounded and the gap between `√idx` and the next integer above it
exceeds the rounding error, so the truncating `uint8_t` cast stores exactly
the floor square root (which is ≤ 128 and hence does not wrap).  It is
modelled by the executable `sqrtLoop 128`, proved equal to `Nat.sqrt` on the
table's domain by `isqrt_table_eq_sqrt`. -/
def isqrt_table (idx : Nat) : Nat := sqrtLoop 128 idx

/-- Conversion of an integer value to C `int8_t`: the narrowing is
implementation-defined in C, and is two's-complement wrap-around on the
compilers glrpt builds with (gcc/clang). -/
def toInt8 (x : Int) : Int := (x + 128) % 256 - 128

/-- `Isqrt` (doqpsk.c 259-264).  For `a ≥ 0` the C code returns
`(int8_t)isqrt_table[a]`; for `a < 0` it computes `-((int8_t)isqrt_table[-a])`
in `int` and the result is narrowed to `int8_t` again on return. -/
def Isqrt (a : Int) : Int :=
  if 0 ≤ a then toInt8 (isqrt_table a.toNat)
  else toInt8 (-(toInt8 (isqrt_table (-a).toNat)))

/-- The absolute index at which `Isqrt a` reads `isqrt_table`
(doqpsk.c 261 reads `isqrt_table[a]`, 263 reads `isqrt_table[-a]`). -/
def isqrtIndex (a : Int) : Int := if 0 ≤ a then a else -a

/-- The pairwise in-place update of `De_Diffcode` (doqpsk.c 280-297): `t1, t2`
hold the raw values of the previous pair (the carried statics `prev_i, prev_q`
for the first pair, the buffered `tmp1, tmp2` afterwards); each pair is
replaced by `Isqrt( buff[idx] * t1 )` and `Isqrt( -buff[idx+1] * t2 )`.  A
trailing element of an odd-length buffer is left untouched, exactly as the C
loop bound `idx <= length - 2` leaves it. -/
def diffAux : Int → Int → List Int → List Int
  | t1, t2, x :: y :: rest => Isqrt (x * t1) :: Isqrt (-(y * t2)) :: diffAux x y rest
  | _, _, rest => rest

/-- The carried static state `(prev_i, prev_q)` of `De_Diffcode` after a call
(doqpsk.c 300-301): the raw values of the last processed input pair. -/
def diffState : Int → Int → List Int → Int × Int
  | _, _, x :: y :: rest => diffState x y rest
  | t1, t2, _ => (t1, t2)

/-- `De_Diffcode` (doqpsk.c 273-304): given the carried state `prev` from the
previous call and the buffer contents, return the decoded buffer and the new
carried state. -/
def De_Diffcode (prev : Int × Int) (buff : List Int) : List Int × (Int × Int) :=
  (diffAux prev.1 prev.2 buff, diffState prev.1 prev.2 buff)

/-- The `isqrt_table` indices accessed during one `De_Diffcode` call, in
order: each processed pair performs the two lookups of its two `Isqrt`
calls. -/
def diffIdxs : Int → Int → List Int → List Int
  | t1, t2, x :: y :: rest =>
      isqrtIndex (x * t1) :: isqrtIndex (-(y * t2)) :: diffIdxs x y rest
  | _, _, _ => []

/-! Section: Properties of the sync locator  -/

theorem findSyncLoop_some (data : List Nat) (base step depth : Nat) :
    ∀ n i o y, findSyncLoop data base step depth n i = some (o, y) →
      i ≤ o ∧ o < i + n ∧ y = Byte_at_Offset data (base + o) ∧
      syncCheck data (base + o) step depth y = true ∧
      ∀ j, i ≤ j → j < o →
        syncCheck data (base + j) step depth (Byte_at_Offset data (base + j))
          = false := by
  intro n
  induction n with
  | zero => intro i o y h; simp [findSyncLoop] at h
  | succ n ih =>
      intro i o y h
      rw [findSyncLoop] at h
      by_cases hc :
          syncCheck data (base + i) step depth (Byte_at_Offset data (base + i))
            = true
      · rw [if_pos hc] at h
        obtain ⟨ho, hy⟩ : i = o ∧ Byte_at_Offset data (base + i) = y := by
          simpa using h
        subst ho
        exact ⟨le_rfl, by omega, hy.symm, hy ▸ hc, fun j h1 h2 => by omega⟩
      · rw [if_neg hc] at h
        obtain ⟨h1, h2, h3, h4, h5⟩ := ih (i + 1) o y h
        refine ⟨by omega, by omega, h3, h4, fun j hj1 hj2 => ?_⟩
        rcases Nat.eq_or_lt_of_le hj1 with rfl | hj
        · exact Bool.eq_false_iff.mpr (fun hh => hc hh)
        · exact h5 j hj hj2

theorem findSyncLoop_none (data : List Nat) (base step depth : Nat) :
    ∀ n i, findSyncLoop data base step depth n i = none →
      ∀ j, i ≤ j → j < i + n →
        syncCheck data (base + j) step depth (Byte_at_Offset data (base + j))
          = false := by
  intro n
  induction n with
  | zero => intro i _ j h1 h2; omega
  | succ n ih =>
      intro i h j h1 h2
      rw [findSyncLoop] at h
      by_cases hc :
          syncCheck data (base + i) step depth (Byte_at_Offset data (base + i))
            = true
      · rw [if_pos hc] at h; exact absurd h (by simp)
      · rw [if_neg hc] at h
        rcases Nat.eq_or_lt_of_le h1 with rfl | hj
        · exact Bool.eq_false_iff.mpr (fun hh => hc hh)
        · exact ih (i + 1) h j hj (by omega)

theorem syncCheck_iff (data : List Nat) (pos step depth sync : Nat) :
    syncCheck data pos step depth sync = true ↔
      ∀ k ∈ Finset.Icc 1 depth,
        Byte_at_Offset data (pos + k * step) = sync := by
  unfold syncCheck
  rw [List.all_eq_true]
  constructor
  · intro h k hk
    rw [Finset.mem_Icc] at hk
    have hm : k - 1 ∈ List.range depth := by
      rw [List.mem_range]; omega
    have := h (k - 1) hm
    rw [show k - 1 + 1 = k from by omega] at this
    exact beq_iff_eq.mp (by simpa using this)
  · intro h j hj
    rw [List.mem_range] at hj
    have := h (j + 1) (Finset.mem_Icc.mpr ⟨by omega, by omega⟩)
    simpa [beq_iff_eq] using this

/-! Section: Properties of the tracking loop  -/

theorem trackLoop_le (src : List Nat) (l2 : Int) (sync : Nat) :
    ∀ f p out, p ≤ (trackLoop src l2 sync f p out).1 := by
  intro f
  induction f with
  | zero => intro p out; simp [trackLoop]
  | succ f ih =>
      intro p out
      rw [trackLoop]
      split
      · split
        · exact le_trans (by omega) (ih (p + 80) _)
        · simp
      · simp

theorem trackLoop_progress (src : List Nat) (l2 : Int) (sync : Nat)
    (p : Nat) (out : List Nat) (f : Nat) (hf : 1 ≤ f)
    (hp : (p : Int) < l2) (hb : Byte_at_Offset src p = sync) :
    p + 80 ≤ (trackLoop src l2 sync f p out).1 := by
  obtain ⟨f', rfl⟩ : ∃ f', f = f' + 1 := ⟨f - 1, by omega⟩
  rw [trackLoop, if_pos hp]
  have hla : lookAhead src l2 p sync = true := by
    unfold lookAhead
    rw [List.any_eq_true]
    refine ⟨0, by simp, ?_⟩
    simp only [Nat.zero_mul, Nat.add_zero, hb, beq_self_eq_true, Bool.and_true]
    exact decide_eq_true hp
  rw [if_pos hla]
  exact trackLoop_le src l2 sync f' (p + 80) _

theorem trackLoop_inv (src : List Nat) (sync : Nat) :
    ∀ f p out, out.length % 72 = 0 → 10 * out.length ≤ 9 * p →
      p ≤ src.length →
      (trackLoop src ((src.length : Int) - 80) sync f p out).2.length % 72 = 0 ∧
      10 * (trackLoop src ((src.length : Int) - 80) sync f p out).2.length ≤
        9 * (trackLoop src ((src.length : Int) - 80) sync f p out).1 ∧
      (trackLoop src ((src.length : Int) - 80) sync f p out).1 ≤ src.length := by
  intro f
  induction f with
  | zero => intro p out h1 h2 h3; exact ⟨h1, h2, h3⟩
  | succ f ih =>
      intro p out h1 h2 h3
      rw [trackLoop]
      split
      · rename_i hp
        have hplen : p + 80 ≤ src.length := by
          have : (p : Int) < (src.length : Int) - 80 := hp
          omega
        split
        · have hchunk : (chunkAt src p).length = 72 := by
            unfold chunkAt
            rw [List.length_take, List.length_drop]
            omega
          refine ih (p + 80) (out ++ chunkAt src p) ?_ ?_ ?_
          · rw [List.length_append, hchunk]; omega
          · rw [List.length_append, hchunk]; omega
          · exact hplen
        · exact ⟨h1, h2, h3⟩
      · exact ⟨h1, h2, h3⟩

theorem trackLoop_stable (src : List Nat) (l2 : Int) (sync : Nat) :
    ∀ (f : Nat) (p : Nat) (out : List Nat), l2 ≤ (p : Int) + 80 * (f : Int) →
      ∀ g, trackLoop src l2 sync (f + g) p out = trackLoop src l2 sync f p out := by
  intro f
  induction f with
  | zero =>
      intro p out hf g
      have hng : ¬ ((p : Int) < l2) := by push_cast at hf; omega
      cases g with
      | zero => rfl
      | succ g =>
          rw [Nat.zero_add, trackLoop, trackLoop, if_neg hng]
  | succ f ih =>
      intro p out hf g
      rw [show f + 1 + g = (f + g) + 1 from by omega, trackLoop, trackLoop]
      split
      · split
        · exact ih (p + 80) _ (by push_cast at hf ⊢; omega) g
        · rfl
      · rfl

/-! Section: Properties of the coarse-acquisition loop and `Resync_Stream`  -/

theorem find_sync_facts (src : List Nat) (p offset sync : Nat)
    (h : Find_Sync src p 400 80 4 = some (offset, sync)) :
    offset < 80 ∧ sync = Byte_at_Offset src (p + offset) := by
  unfold Find_Sync at h
  rw [show 400 - 80 * 4 = 80 from by norm_num] at h
  obtain ⟨_, h2, h3, _, _⟩ := findSyncLoop_some src p 80 4 80 0 offset sync h
  exact ⟨by omega, h3⟩

theorem resyncLoop_inv (src : List Nat) :
    ∀ (f : Nat) (p : Nat) (out : List Nat),
      out.length % 72 = 0 → 10 * out.length ≤ 9 * p → p ≤ src.length →
      (resyncLoop src ((src.length : Int) - 320) ((src.length : Int) - 80)
          f p out).length % 72 = 0 ∧
      10 * (resyncLoop src ((src.length : Int) - 320) ((src.length : Int) - 80)
          f p out).length ≤ 9 * src.length := by
  intro f
  induction f with
  | zero =>
      intro p out h1 h2 h3
      simp only [resyncLoop]
      exact ⟨h1, by omega⟩
  | succ f ih =>
      intro p out h1 h2 h3
      rw [resyncLoop]
      split
      · rename_i hp
        have hp' : p + 320 < src.length := by
          have : (p : Int) < (src.length : Int) - 320 := hp
          omega
        cases hF : Find_Sync src p 400 80 4 with
        | none =>
            exact ih (p + 240) out h1 (by omega) (by omega)
        | some os =>
            obtain ⟨offset, sync⟩ := os
            obtain ⟨ho, _⟩ := find_sync_facts src p offset sync hF
            obtain ⟨t1, t2, t3⟩ :=
              trackLoop_inv src sync src.length (p + offset) out h1
                (by omega) (by omega)
            exact ih _ _ t1 (le_trans t2 (by omega)) t3
      · exact ⟨h1, by omega⟩

theorem resyncLoop_no_sync (src : List Nat) (l1 l2 : Int)
    (hns : ∀ p, Find_Sync src p 400 80 4 = none) :
    ∀ (f : Nat) (p : Nat) (out : List Nat),
      resyncLoop src l1 l2 f p out = out := by
  intro f
  induction f with
  | zero => intro p out; rfl
  | succ f ih =>
      intro p out
      rw [resyncLoop]
      split
      · rw [hns p]
        exact ih (p + 240) out
      · rfl

theorem resyncLoop_stable (src : List Nat) (l1 l2 : Int) (hl : l2 = l1 + 240)
    (hl1 : l1 ≤ (src.length : Int) - 320) :
    ∀ (f : Nat) (p : Nat) (out : List Nat),
      l1 ≤ (p : Int) + 80 * (f : Int) → ∀ g,
      resyncLoop src l1 l2 (f + g) p out = resyncLoop src l1 l2 f p out := by
  intro f
  induction f with
  | zero =>
      intro p out hf g
      have hng : ¬ ((p : Int) < l1) := by push_cast at hf; omega
      cases g with
      | zero => rfl
      | succ g =>
          rw [Nat.zero_add, resyncLoop, resyncLoop, if_neg hng]
  | succ f ih =>
      intro p out hf g
      rw [show f + 1 + g = (f + g) + 1 from by omega, resyncLoop, resyncLoop]
      split
      · rename_i hp
        cases hF : Find_Sync src p 400 80 4 with
        | none =>
            exact ih (p + 240) out (by push_cast at hf ⊢; omega) g
        | some os =>
            obtain ⟨offset, sync⟩ := os
            obtain ⟨ho, hsync⟩ := find_sync_facts src p offset sync hF
            have hlen : 320 < src.length := by
              have h1 : (p : Int) < l1 := hp
              have : (p : Int) < (src.length : Int) - 320 :=
                lt_of_lt_of_le h1 hl1
              omega
            have hplt : ((p + offset : Nat) : Int) < l2 := by
              have h1 : (p : Int) < l1 := hp
              subst hl
              push_cast
              omega
            have hprog : p + 80 ≤
                (trackLoop src l2 sync src.length (p + offset) out).1 := by
              have := trackLoop_progress src l2 sync (p + offset) out
                src.length (by omega) hplt hsync.symm
              omega
            exact ih _ _ (by push_cast at hf ⊢; omega) g
      · rfl

theorem resync_fuel_suffices (raw : List Nat) (g : Nat) :
    resyncLoop raw ((raw.length : Int) - 320) ((raw.length : Int) - 80)
      (raw.length + g) 0 [] = Resync_Stream raw := by
  unfold Resync_Stream
  exact resyncLoop_stable raw _ _ (by ring) le_rfl raw.length 0 []
    (by push_cast; omega) g

theorem resync_length_bound (raw : List Nat) :
    (Resync_Stream raw).length % 72 = 0 ∧
    10 * (Resync_Stream raw).length ≤ 9 * raw.length := by
  unfold Resync_Stream
  exact resyncLoop_inv raw raw.length 0 [] (by simp) (by simp) (by simp)

theorem getD_map_range (n : Nat) (f : Nat → Nat) (i : Nat) (h : i < n) :
    ((List.range n).map f).getD i 0 = f i := by
  rw [List.getD_eq_getElem?_getD, List.getElem?_map, List.getElem?_range h]
  rfl

/-! Section: Claims C5, C6, C1, C7, C2  -/

/-- Claim C5: `Find_Sync` returns success iff some offset `i` in
`[0, block_siz - stride*depth)` has its hard-decision byte repeated at
`i + k*stride` for every `k = 1..depth`; on success it reports the smallest
such offset together with that byte, and on failure it reports `none`. -/
theorem c5_find_sync_spec (data : List Nat) (base block_siz step depth : Nat) :
    ((Find_Sync data base block_siz step depth).isSome ↔
      ∃ i, i < block_siz - step * depth ∧
        ∀ k ∈ Finset.Icc 1 depth,
          Byte_at_Offset data (base + i + k * step)
            = Byte_at_Offset data (base + i)) ∧
    (∀ o y, Find_Sync data base block_siz step depth = some (o, y) →
      o < block_siz - step * depth ∧
      y = Byte_at_Offset data (base + o) ∧
      (∀ k ∈ Finset.Icc 1 depth,
        Byte_at_Offset data (base + o + k * step)
          = Byte_at_Offset data (base + o)) ∧
      ∀ i, i < o →
        ¬ ∀ k ∈ Finset.Icc 1 depth,
            Byte_at_Offset data (base + i + k * step)
              = Byte_at_Offset data (base + i)) := by
  have hsome : ∀ o y, Find_Sync data base block_siz step depth = some (o, y) →
      o < block_siz - step * depth ∧
      y = Byte_at_Offset data (base + o) ∧
      (∀ k ∈ Finset.Icc 1 depth,
        Byte_at_Offset data (base + o + k * step)
          = Byte_at_Offset data (base + o)) ∧
      ∀ i, i < o →
        ¬ ∀ k ∈ Finset.Icc 1 depth,
            Byte_at_Offset data (base + i + k * step)
              = Byte_at_Offset data (base + i) := by
    intro o y h
    obtain ⟨_, h2, h3, h4, h5⟩ :=
      findSyncLoop_some data base step depth (block_siz - step * depth) 0 o y h
    refine ⟨by omega, h3, ?_, ?_⟩
    · have := (syncCheck_iff data (base + o) step depth y).mp h4
      intro k hk
      have hx := this k hk
      rw [h3] at hx
      exact hx
    · intro i hi hall
      have : syncCheck data (base + i) step depth
          (Byte_at_Offset data (base + i)) = true :=
        (syncCheck_iff data (base + i) step depth _).mpr hall
      rw [h5 i (by omega) hi] at this
      exact absurd this (by simp)
  constructor
  · constructor
    · intro h
      rw [Option.isSome_iff_exists] at h
      obtain ⟨⟨o, y⟩, h⟩ := h
      obtain ⟨h1, _, h3, _⟩ := hsome o y h
      exact ⟨o, h1, h3⟩
    · intro ⟨i, hi, hall⟩
      cases hF : Find_Sync data base block_siz step depth with
      | some os => simp
      | none =>
          have := findSyncLoop_none data base step depth
            (block_siz - step * depth) 0 hF i (by omega) (by omega)
          have hc : syncCheck data (base + i) step depth
              (Byte_at_Offset data (base + i)) = true :=
            (syncCheck_iff data (base + i) step depth _).mpr hall
          rw [this] at hc
          exact absurd hc (by simp)
  · exact hsome

/-- Witness for C5 at a concrete input: on a 321-byte all-zero buffer the
locator succeeds at offset 0 with sync byte 255, and the located offset
satisfies the repeated-byte property. -/
theorem c5_witness :
    Find_Sync (List.replicate 321 (0 : Nat)) 0 400 80 4 = some (0, 255) ∧
    (∀ k ∈ Finset.Icc 1 4,
      Byte_at_Offset (List.replicate 321 (0 : Nat)) (0 + 0 + k * 80)
        = Byte_at_Offset (List.replicate 321 (0 : Nat)) (0 + 0)) := by
  have h : Find_Sync (List.replicate 321 (0 : Nat)) 0 400 80 4
      = some (0, 255) := by decide
  exact ⟨h,
    ((c5_find_sync_spec (List.replicate 321 0) 0 400 80 4).2 0 255 h).2.2.1⟩

/-- Claim C6: for every raw buffer of positive length, the length reported by
`Resync_Stream` is a multiple of 72 and is either zero or strictly less than
the raw length; in particular it is zero whenever no sync train (no offset
whose byte repeats at stride 80, depth 4) exists anywhere in the buffer. -/
theorem c6_resync_length (raw : List Nat) (hpos : 0 < raw.length) :
    (Resync_Stream raw).length % 72 = 0 ∧
    ((Resync_Stream raw).length = 0 ∨
      (Resync_Stream raw).length < raw.length) ∧
    ((∀ p, Find_Sync raw p 400 80 4 = none) →
      (Resync_Stream raw).length = 0) := by
  obtain ⟨h72, hb⟩ := resync_length_bound raw
  refine ⟨h72, by omega, ?_⟩
  intro hns
  unfold Resync_Stream
  rw [resyncLoop_no_sync raw _ _ hns raw.length 0 []]
  rfl

/-- Witness for C6 at the concrete 5-byte all-zero buffer. -/
theorem c6_witness :
    0 < (List.replicate 5 (0 : Nat)).length ∧
    (Resync_Stream (List.replicate 5 (0 : Nat))).length % 72 = 0 ∧
    ((Resync_Stream (List.replicate 5 (0 : Nat))).length = 0 ∨
      (Resync_Stream (List.replicate 5 (0 : Nat))).length
        < (List.replicate 5 (0 : Nat)).length) :=
  ⟨by decide, (c6_resync_length (List.replicate 5 0) (by decide)).1,
    (c6_resync_length (List.replicate 5 0) (by decide)).2.1⟩

/-- Claim C1: whenever `Resync_Stream` reports a zero-length result or a
result that is not strictly shorter than the raw input, `De_Interleave` does
not proceed: the de-interleaving loop performs no writes (its write set — the
output list — is empty) and the allocation guard fails, signalling
`"Resync_Stream() failed"` instead. -/
theorem c1_no_writes_on_failure (raw : List Nat)
    (h : (Resync_Stream raw).length = 0 ∨
      ¬ (Resync_Stream raw).length < raw.length) :
    De_Interleave raw = [] ∧ resyncOk raw = false := by
  have hb := (resync_length_bound raw).2
  have hz : (Resync_Stream raw).length = 0 := by
    rcases h with h | h
    · exact h
    · omega
  constructor
  · unfold De_Interleave
    rw [hz]
    rfl
  · unfold resyncOk
    rw [hz]
    simp

/-- Witness for C1 at the concrete 5-byte all-zero buffer, on which the
resynchronizer reports length zero. -/
theorem c1_witness :
    (Resync_Stream (List.replicate 5 (0 : Nat))).length = 0 ∧
    De_Interleave (List.replicate 5 (0 : Nat)) = [] ∧
    resyncOk (List.replicate 5 (0 : Nat)) = false :=
  ⟨by decide,
    (c1_no_writes_on_failure (List.replicate 5 0) (Or.inl (by decide))).1,
    (c1_no_writes_on_failure (List.replicate 5 0) (Or.inl (by decide))).2⟩

/-- Claim C7: with B = 36 and L = 73728, each destination index `i` of the
de-interleaved output receives the resynchronized symbol at source index
`i + (i % 36) * 73728` when that index is within the resynchronized length,
and otherwise keeps the unfilled default; the output length equals the
resynchronized length. -/
theorem c7_deinterleave (raw : List Nat) :
    (De_Interleave raw).length = (Resync_Stream raw).length ∧
    ∀ i, i < (De_Interleave raw).length →
      (i + (i % 36) * 73728 < (Resync_Stream raw).length →
        (De_Interleave raw).getD i 0 =
          (Resync_Stream raw).getD (i + (i % 36) * 73728) 0) ∧
      (¬ i + (i % 36) * 73728 < (Resync_Stream raw).length →
        (De_Interleave raw).getD i 0 = allocDefault) := by
  have hlen : (De_Interleave raw).length = (Resync_Stream raw).length := by
    unfold De_Interleave
    rw [List.length_map, List.length_range]
  refine ⟨hlen, ?_⟩
  intro i hi
  rw [hlen] at hi
  have hget : (De_Interleave raw).getD i 0 =
      (if i + (i % 36) * 73728 < (Resync_Stream raw).length then
        (Resync_Stream raw).getD (i + (i % 36) * 73728) 0
      else allocDefault) := by
    unfold De_Interleave
    exact getD_map_range _ _ i hi
  constructor
  · intro hc
    rw [hget, if_pos hc]
  · intro hc
    rw [hget, if_neg hc]

/-- Witness for C7 at the concrete 401-byte all-zero buffer, on which the
resynchronizer recovers 360 symbols; destination 0 maps to source 0. -/
theorem c7_witness :
    0 < (De_Interleave (List.replicate 401 (0 : Nat))).length ∧
    (0 + (0 % 36) * 73728
        < (Resync_Stream (List.replicate 401 (0 : Nat))).length →
      (De_Interleave (List.replicate 401 (0 : Nat))).getD 0 0 =
        (Resync_Stream (List.replicate 401 (0 : Nat))).getD
          (0 + (0 % 36) * 73728) 0) :=
  ⟨by decide,
    ((c7_deinterleave (List.replicate 401 0)).2 0 (by decide)).1⟩

/-- Claim C2 is refuted by this input: on a 321-byte buffer the coarse loop
guard `posn < raw_siz - SYNCD_BUF_MARGIN = raw_siz - 320` admits `posn = 0`
and invokes `Find_Sync` there, and during the depth-4 confirmation of
candidate offset 0 the byte extraction at `posn + 0 + 4*80 = 320` reads the
window `[320, 327]`, whose indices 321..327 lie beyond the end of the
buffer.  (The look-forward need for `Find_Sync` is `399 + 8` symbols, while
the guard reserves only 320.) -/
theorem c2_oob_read :
    ((0 : Nat) : Int) < ((List.replicate 321 (0 : Nat)).length : Int) - 320 ∧
    Find_Sync (List.replicate 321 (0 : Nat)) 0 400 80 4 = some (0, 255) ∧
    327 ∈ byteWindow (0 + 0 + 4 * 80) ∧
    (List.replicate 321 (0 : Nat)).length ≤ 327 := by
  refine ⟨by decide, by decide, by decide, by decide⟩

/-! Section: Properties of the square-root table and the differential decoder  -/

theorem sqrtLoop_eq_sqrt : ∀ r idx, Nat.sqrt idx ≤ r →
    sqrtLoop r idx = Nat.sqrt idx := by
  intro r
  induction r with
  | zero => intro idx h; simp only [sqrtLoop]; omega
  | succ r ih =>
      intro idx h
      rw [sqrtLoop]
      split
      · rename_i hc
        have : r + 1 ≤ Nat.sqrt idx := Nat.le_sqrt.mpr hc
        omega
      · rename_i hc
        have : Nat.sqrt idx < r + 1 := by
          by_contra hh
          exact hc (Nat.le_sqrt.mp (by omega))
        exact ih idx (by omega)

/-- On the domain the C code builds the table for, the modelled table holds
the floor square root. -/
theorem isqrt_table_eq_sqrt (idx : Nat) (h : idx ≤ 16384) :
    isqrt_table idx = Nat.sqrt idx := by
  apply sqrtLoop_eq_sqrt
  have h1 : Nat.sqrt idx ≤ Nat.sqrt 16384 := Nat.sqrt_le_sqrt h
  have h2 : Nat.sqrt 16384 = 128 := by
    rw [show (16384 : Nat) = 128 * 128 from by norm_num, Nat.sqrt_eq]
  omega

/-- Induction on a list of soft symbols two elements at a time, following the
pair structure of the differential decoder. -/
theorem pair_induction {motive : List Int → Prop} (h0 : motive [])
    (h1 : ∀ x, motive [x])
    (h2 : ∀ x y l, motive l → motive (x :: y :: l)) :
    ∀ l, motive l
  | [] => h0
  | [x] => h1 x
  | x :: y :: l => h2 x y l (pair_induction h0 h1 h2 l)

theorem diffAux_length : ∀ (l : List Int) (t1 t2 : Int),
    (diffAux t1 t2 l).length = l.length := by
  intro l
  induction l using pair_induction with
  | h0 => intro t1 t2; rfl
  | h1 x => intro t1 t2; rfl
  | h2 x y l ih =>
      intro t1 t2
      simp only [diffAux, List.length_cons]
      rw [ih x y]

theorem getD_cons_cons (x y : Int) (l : List Int) (n : Nat) :
    (x :: y :: l).getD (n + 2) 0 = l.getD n 0 := by
  simp [List.getD_cons_succ]

theorem diffAux_getD_pair :
    ∀ (l : List Int) (t1 t2 : Int) (k : Nat), 2 * k + 1 < l.length →
      (diffAux t1 t2 l).getD (2 * k) 0 =
        Isqrt (l.getD (2 * k) 0 *
          (if k = 0 then t1 else l.getD (2 * k - 2) 0)) ∧
      (diffAux t1 t2 l).getD (2 * k + 1) 0 =
        Isqrt (-(l.getD (2 * k + 1) 0 *
          (if k = 0 then t2 else l.getD (2 * k - 1) 0))) := by
  intro l
  induction l using pair_induction with
  | h0 => intro t1 t2 k h; simp at h
  | h1 x => intro t1 t2 k h; simp at h
  | h2 x y l ih =>
      intro t1 t2 k h
      cases k with
      | zero => simp [diffAux]
      | succ k =>
          have h' : 2 * k + 1 < l.length := by
            simp only [List.length_cons] at h; omega
          obtain ⟨ih1, ih2⟩ := ih x y k h'
          have e0 : 2 * (k + 1) = 2 * k + 1 + 1 := by omega
          have e1 : 2 * (k + 1) + 1 = 2 * k + 1 + 1 + 1 := by omega
          constructor
          · rw [e0]
            simp only [diffAux, List.getD_cons_succ]
            rw [ih1, if_neg (Nat.succ_ne_zero k),
              show (2 * k + 1 + 1 : Nat) - 2 = 2 * k from by omega]
            cases k with
            | zero => simp
            | succ k' =>
                rw [if_neg (Nat.succ_ne_zero k'),
                  show (2 * (k' + 1) : Nat) - 2 = 2 * k' from by omega,
                  show (2 * (k' + 1) : Nat) = 2 * k' + 1 + 1 from by omega]
                simp only [List.getD_cons_succ]
          · rw [e1, show (2 * (k + 1) : Nat) - 1 = 2 * k + 1 from by omega]
            simp only [diffAux, List.getD_cons_succ]
            rw [ih2, if_neg (Nat.succ_ne_zero k)]
            cases k with
            | zero => simp
            | succ k' =>
                rw [if_neg (Nat.succ_ne_zero k'),
                  show (2 * (k' + 1) : Nat) - 1 = 2 * k' + 1 from by omega,
                  show (2 * (k' + 1) : Nat) = 2 * k' + 1 + 1 from by omega]
                simp only [List.getD_cons_succ]

theorem diffState_eq :
    ∀ (l : List Int) (t1 t2 : Int), l.length % 2 = 0 → 2 ≤ l.length →
      diffState t1 t2 l =
        (l.getD (l.length - 2) 0, l.getD (l.length - 1) 0) := by
  intro l
  induction l using pair_induction with
  | h0 => intro t1 t2 _ h2; simp at h2
  | h1 x => intro t1 t2 hev _; simp at hev
  | h2 x y l ih =>
      intro t1 t2 hev _
      rcases l with _ | ⟨a, l'⟩
      · rfl
      · have hev' : (a :: l').length % 2 = 0 := by
          simp only [List.length_cons] at hev ⊢; omega
        have h2' : 2 ≤ (a :: l').length := by
          simp only [List.length_cons] at hev' ⊢; omega
        have hstep : diffState t1 t2 (x :: y :: a :: l') =
            diffState x y (a :: l') := rfl
        rw [hstep, ih x y hev' h2']
        have hL : (x :: y :: a :: l').length = (a :: l').length + 2 := by
          simp
        rw [hL,
          show (a :: l').length + 2 - 2 = ((a :: l').length - 2) + 2
            from by omega,
          show (a :: l').length + 2 - 1 = ((a :: l').length - 1) + 2
            from by omega,
          getD_cons_cons, getD_cons_cons]

theorem diff_append :
    ∀ (a : List Int) (t1 t2 : Int) (b : List Int), a.length % 2 = 0 →
      diffAux t1 t2 (a ++ b) =
        diffAux t1 t2 a ++
          diffAux (diffState t1 t2 a).1 (diffState t1 t2 a).2 b ∧
      diffState t1 t2 (a ++ b) =
        diffState (diffState t1 t2 a).1 (diffState t1 t2 a).2 b := by
  intro a
  induction a using pair_induction with
  | h0 =>
      intro t1 t2 b _
      constructor
      · rw [List.nil_append]
        rfl
      · rfl
  | h1 x => intro t1 t2 b h; simp at h
  | h2 x y l ih =>
      intro t1 t2 b hev
      have hev' : l.length % 2 = 0 := by
        simp only [List.length_cons] at hev; omega
      obtain ⟨ihA, ihS⟩ := ih x y b hev'
      constructor
      · simp only [List.cons_append, diffAux, List.append_eq]
        rw [ihA]
        rfl
      · simp only [List.cons_append]
        rw [show diffState t1 t2 (x :: y :: (l ++ b)) = diffState x y (l ++ b)
            from rfl,
          show diffState t1 t2 (x :: y :: l) = diffState x y l from rfl]
        exact ihS

theorem diffIdxs_bound :
    ∀ (l : List Int) (t1 t2 : Int),
      (∀ v ∈ l, -128 ≤ v ∧ v ≤ 127) →
      -128 ≤ t1 → t1 ≤ 127 → -128 ≤ t2 → t2 ≤ 127 →
      ∀ t ∈ diffIdxs t1 t2 l, 0 ≤ t ∧ t ≤ 16384 := by
  intro l
  induction l using pair_induction with
  | h0 => intro t1 t2 _ _ _ _ _ t ht; simp [diffIdxs] at ht
  | h1 x => intro t1 t2 _ _ _ _ _ t ht; simp [diffIdxs] at ht
  | h2 x y l ih =>
      intro t1 t2 hb hl1 hu1 hl2 hu2 t ht
      have hx := hb x (by simp)
      have hy := hb y (by simp)
      have hb' : ∀ v ∈ l, -128 ≤ v ∧ v ≤ 127 := fun v hv =>
        hb v (by simp [hv])
      simp only [diffIdxs, List.mem_cons] at ht
      have hbound : ∀ u w : Int, -128 ≤ u → u ≤ 127 → -128 ≤ w → w ≤ 127 →
          -16384 ≤ u * w ∧ u * w ≤ 16384 := by
        intro u w h1 h2 h3 h4
        constructor
        · nlinarith [mul_nonneg (by linarith : (0 : Int) ≤ 128 + u)
              (by linarith : (0 : Int) ≤ 127 - w),
            mul_nonneg (by linarith : (0 : Int) ≤ 128 - u)
              (by linarith : (0 : Int) ≤ 128 + w)]
        · nlinarith [mul_nonneg (by linarith : (0 : Int) ≤ 128 + u)
              (by linarith : (0 : Int) ≤ 128 + w),
            mul_nonneg (by linarith : (0 : Int) ≤ 128 - u)
              (by linarith : (0 : Int) ≤ 128 - w)]
      rcases ht with rfl | rfl | ht
      · obtain ⟨hd, hu⟩ := hbound x t1 hx.1 hx.2 hl1 hu1
        unfold isqrtIndex
        split <;> omega
      · obtain ⟨hd, hu⟩ := hbound y t2 hy.1 hy.2 hl2 hu2
        unfold isqrtIndex
        split <;> omega
      · exact ih x y hb' hx.1 hx.2 hy.1 hy.2 t ht

/-! Section: Claims C3, C4, C8, C9, C10  -/

/-- Claim C3 fails at the upper corner of the table domain: the table itself
correctly stores `isqrt_table[16384] = 128`, but `Isqrt` narrows it through
an `(int8_t)` cast, which wraps 128 to −128, so `Isqrt(16384) = -128` rather
than the claimed `128`.  The neighbouring claimed values (`Isqrt(0) = 0`,
`Isqrt(-9) = -3`, and the whole range `|a| ≤ 16383`, sampled here at
`±16383`) behave as claimed, because their roots are at most 127 and survive
the cast. -/
theorem c3_isqrt_at_16384 :
    Isqrt 16384 = -128 ∧ isqrt_table 16384 = 128 ∧
    Isqrt 0 = 0 ∧ Isqrt (-9) = -3 ∧
    Isqrt 16383 = 127 ∧ Isqrt (-16383) = -127 ∧ Isqrt (-16384) = -128 := by
  refine ⟨by decide, by decide, by decide, by decide, by decide, by decide,
    by decide⟩

/-- Claim C4: for an even-length buffer of at least one pair,
`De_Diffcode` writes the first output pair from the carried state —
`out[0] = Isqrt(in[0]*prev_i)`, `out[1] = Isqrt(-in[1]*prev_q)` — and every
later pair `k ≥ 1` from the previous raw input pair —
`out[2k] = Isqrt(in[2k]*in[2k-2])`, `out[2k+1] = Isqrt(-in[2k+1]*in[2k-1])` —
and afterwards the carried state is the last raw input pair. -/
theorem c4_de_diffcode (prev : Int × Int) (buff : List Int)
    (h2 : 2 ≤ buff.length) (hev : buff.length % 2 = 0) :
    (De_Diffcode prev buff).1.getD 0 0 =
      Isqrt (buff.getD 0 0 * prev.1) ∧
    (De_Diffcode prev buff).1.getD 1 0 =
      Isqrt (-(buff.getD 1 0 * prev.2)) ∧
    (∀ k, 1 ≤ k → 2 * k + 1 < buff.length →
      (De_Diffcode prev buff).1.getD (2 * k) 0 =
        Isqrt (buff.getD (2 * k) 0 * buff.getD (2 * k - 2) 0) ∧
      (De_Diffcode prev buff).1.getD (2 * k + 1) 0 =
        Isqrt (-(buff.getD (2 * k + 1) 0 * buff.getD (2 * k - 1) 0))) ∧
    (De_Diffcode prev buff).2 =
      (buff.getD (buff.length - 2) 0, buff.getD (buff.length - 1) 0) := by
  obtain ⟨hz0, hz1⟩ := diffAux_getD_pair buff prev.1 prev.2 0 (by omega)
  refine ⟨?_, ?_, ?_, ?_⟩
  · simpa using hz0
  · simpa using hz1
  · intro k hk hklen
    obtain ⟨ha, hb⟩ := diffAux_getD_pair buff prev.1 prev.2 k hklen
    rw [if_neg (by omega : ¬ k = 0)] at ha hb
    exact ⟨ha, hb⟩
  · exact diffState_eq buff prev.1 prev.2 hev h2

/-- Witness for C4 at `prev = (2, 4)`, `buff = [3, 5, 7, 9]`. -/
theorem c4_witness :
    2 ≤ ([3, 5, 7, 9] : List Int).length ∧
    ([3, 5, 7, 9] : List Int).length % 2 = 0 ∧
    (De_Diffcode (2, 4) ([3, 5, 7, 9] : List Int)).1.getD 0 0 =
      Isqrt (([3, 5, 7, 9] : List Int).getD 0 0 * 2) ∧
    (De_Diffcode (2, 4) ([3, 5, 7, 9] : List Int)).2 =
      (([3, 5, 7, 9] : List Int).getD 2 0,
        ([3, 5, 7, 9] : List Int).getD 3 0) :=
  ⟨by decide, by decide,
    (c4_de_diffcode (2, 4) [3, 5, 7, 9] (by decide) (by decide)).1,
    (c4_de_diffcode (2, 4) [3, 5, 7, 9] (by decide) (by decide)).2.2.2⟩

/-- Claim C8: decoding a stream split at any even position in two sequential
calls, carrying the state between them, yields the same output contents and
the same final carried state as decoding the whole stream in one call. -/
theorem c8_split_stream (s : Int × Int) (l : List Int) (n : Nat)
    (_h4 : 4 ≤ l.length) (hev : l.length % 2 = 0) (hn : n % 2 = 0)
    (_h0 : 0 < n) (hlt : n < l.length) :
    (De_Diffcode s (l.take n)).1 ++
        (De_Diffcode (De_Diffcode s (l.take n)).2 (l.drop n)).1 =
      (De_Diffcode s l).1 ∧
    (De_Diffcode (De_Diffcode s (l.take n)).2 (l.drop n)).2 =
      (De_Diffcode s l).2 := by
  have hlen : (l.take n).length = n := by
    rw [List.length_take]
    omega
  obtain ⟨hA, hS⟩ :=
    diff_append (l.take n) s.1 s.2 (l.drop n) (by rw [hlen]; exact hn)
  rw [List.take_append_drop] at hA hS
  exact ⟨hA.symm, hS.symm⟩

/-- Witness for C8 splitting `[1, 2, 3, 4]` at position 2 with initial
state `(0, 0)`. -/
theorem c8_witness :
    4 ≤ ([1, 2, 3, 4] : List Int).length ∧
    ([1, 2, 3, 4] : List Int).length % 2 = 0 ∧ 2 % 2 = 0 ∧ 0 < 2 ∧
    2 < ([1, 2, 3, 4] : List Int).length ∧
    (De_Diffcode (0, 0) (([1, 2, 3, 4] : List Int).take 2)).1 ++
        (De_Diffcode (De_Diffcode (0, 0) (([1, 2, 3, 4] : List Int).take 2)).2
          (([1, 2, 3, 4] : List Int).drop 2)).1 =
      (De_Diffcode (0, 0) ([1, 2, 3, 4] : List Int)).1 :=
  ⟨by decide, by decide, by decide, by decide, by decide,
    (c8_split_stream (0, 0) [1, 2, 3, 4] 2 (by decide) (by decide) (by decide)
      (by decide) (by decide)).1⟩

/-- Claim C9: when the buffer holds 8-bit signed symbol values and the carried
state is the initial zero state or a pair of 8-bit signed values, every
`isqrt_table` index accessed during a `De_Diffcode` call lies in
`[0, 16384]` — the out-of-range case is unreachable. -/
theorem c9_table_index_range (prev : Int × Int) (buff : List Int)
    (hb : ∀ v ∈ buff, -128 ≤ v ∧ v ≤ 127)
    (hp : prev = (0, 0) ∨
      (-128 ≤ prev.1 ∧ prev.1 ≤ 127 ∧ -128 ≤ prev.2 ∧ prev.2 ≤ 127)) :
    ∀ t ∈ diffIdxs prev.1 prev.2 buff, 0 ≤ t ∧ t ≤ 16384 := by
  rcases hp with rfl | ⟨a, b, c, d⟩
  · exact diffIdxs_bound buff 0 0 hb (by norm_num) (by norm_num)
      (by norm_num) (by norm_num)
  · exact diffIdxs_bound buff prev.1 prev.2 hb a b c d

/-- Witness for C9 at the extreme corner `prev = (-128, -128)`,
`buff = [-128, -128]`, where both accessed indices equal 16384. -/
theorem c9_witness :
    (∀ v ∈ ([-128, -128] : List Int), -128 ≤ v ∧ v ≤ 127) ∧
    ∀ t ∈ diffIdxs (-128) (-128) ([-128, -128] : List Int),
      0 ≤ t ∧ t ≤ 16384 :=
  ⟨by decide,
    c9_table_index_range (-128, -128) [-128, -128] (by decide)
      (Or.inr (by norm_num))⟩

/-- Claim C10: on the very first call (carried state still `(0, 0)`), the
first output pair is `(0, 0)` whatever the buffer holds, because both first
products are zero and the table maps 0 to 0. -/
theorem c10_first_pair_zero (buff : List Int) (h2 : 2 ≤ buff.length) :
    (De_Diffcode (0, 0) buff).1.getD 0 0 = 0 ∧
    (De_Diffcode (0, 0) buff).1.getD 1 0 = 0 := by
  rcases buff with _ | ⟨x, _ | ⟨y, rest⟩⟩
  · simp at h2
  · simp at h2
  · have h0 : Isqrt 0 = 0 := by decide
    simp [De_Diffcode, diffAux, mul_zero, neg_zero, h0]

/-- Witness for C10 at `buff = [37, -100]`. -/
theorem c10_witness :
    2 ≤ ([37, -100] : List Int).length ∧
    (De_Diffcode (0, 0) ([37, -100] : List Int)).1.getD 0 0 = 0 ∧
    (De_Diffcode (0, 0) ([37, -100] : List Int)).1.getD 1 0 = 0 :=
  ⟨by decide,
    (c10_first_pair_zero [37, -100] (by decide)).1,
    (c10_first_pair_zero [37, -100] (by decide)).2⟩

end Doqpsk
